import Mathlib

/-!
Verification of the niml-go configuration parser.

The Go source consists of a line-oriented parser (`parseFile` in the
monolithic file, `ParseFile` in the modular `file` package) producing a
`map[string]interface{}`, and a reflective struct filler (`fillStruct` /
`FillStruct`) with scalar coercion helpers (`parseToInt`, `parseToBool`,
`ParseToInt`, `ParseToBool`).

Modelling choices:
- Go strings are lists of characters (`Str`); `map[string]interface{}` is an
  association list whose assignment operation (`setKey`) replaces in place,
  exactly mirroring observable Go map behaviour (lookup, assignment,
  existence test); structural equality of documents is equality of these
  association lists.
- the dynamic type `interface{}` is the closed union `GoAny` of the shapes
  the code inspects: `string`, `int`, `int64`, `bool`,
  `map[string]interface{}`, plus a constructor for every other dynamic type
  (carrying its `%T` name).  `float64` values and float-kinded record fields
  are outside the embedding: floating point is not shallowly embeddable.
- the reflective view of a target struct is the mutual inductive
  `GoVal`/`GoFields`: a field list carrying for each field its name, its
  `niml` tag (empty list = no tag), its `CanSet` flag and its current value.
  `reflect.Value.SetInt`/`SetUint` conversion to a narrower machine type
  truncates modulo 2^bits, which is modelled explicitly.
- the struct filler mutates fields in place and returns an `error`; this is
  embedded as a function returning the final field list together with
  `Option Str` (the error message, `none` for Go's `nil`).
-/

abbrev Str := List Char

/-- Character predicate of Go's `unicode.IsSpace`, used by
`strings.TrimSpace`. -/
def goIsSpace (c : Char) : Bool :=
  decide (c = ' ' ∨ c = '\t' ∨ c = '\n' ∨ c = '\x0b' ∨ c = '\x0c' ∨ c = '\r' ∨
    c = '\x85' ∨ c = '\xA0' ∨ c = '\u1680' ∨ ('\u2000' ≤ c ∧ c ≤ '\u200A') ∨
    c = '\u2028' ∨ c = '\u2029' ∨ c = '\u202F' ∨ c = '\u205F' ∨ c = '\u3000')

/-- `c` is one of the characters of the cutset `"()"` of the
`strings.Trim(line, "()")` call in the topic-header branch. -/
def isParen (c : Char) : Bool :=
  decide (c = '(' ∨ c = ')')

/-- `c` is the double-quote character, the cutset of the
`strings.Trim(value, "\x22")` call in the key/value branch. -/
def isQuote (c : Char) : Bool :=
  decide (c = '\x22')

/-- Remove the longest suffix of characters satisfying `p`
(the trailing half of Go's `strings.Trim` family). -/
def dropTrail (p : Char → Bool) (l : Str) : Str :=
  (l.reverse.dropWhile p).reverse

/-- Go `strings.TrimSpace`. -/
def trimSpace (l : Str) : Str :=
  dropTrail goIsSpace (l.dropWhile goIsSpace)

/-- Go `strings.Trim(line, "()")`. -/
def trimParens (l : Str) : Str :=
  dropTrail isParen (l.dropWhile isParen)

/-- Go `strings.Trim(value, "\x22")`. -/
def trimQuotes (l : Str) : Str :=
  dropTrail isQuote (l.dropWhile isQuote)

/-- Go `strings.HasPrefix(line, ";;")`. -/
def startsSemis (l : Str) : Bool :=
  match l with
  | c1 :: c2 :: _ => decide (c1 = ';' ∧ c2 = ';')
  | _ => false

/-- Go `strings.HasPrefix` for a one-character pattern. -/
def startsWithChar (c : Char) (l : Str) : Bool :=
  match l with
  | [] => false
  | a :: _ => decide (a = c)

/-- Go `strings.HasSuffix` for a one-character pattern. -/
def endsWithChar (c : Char) (l : Str) : Bool :=
  match l.reverse with
  | [] => false
  | a :: _ => decide (a = c)

/-- Go `strings.Index(l, pat)`: index of the first occurrence of the
substring `pat`, `none` (Go: `-1`) when absent. -/
def indexOfSub (pat : Str) (l : Str) : Option Nat :=
  if pat.isPrefixOf l then some 0
  else
    match l with
    | [] => none
    | _ :: rest => (indexOfSub pat rest).map (· + 1)

/-- Go `strings.SplitN(l, ch, 2)`, reported as `some (before, after)` at the
first occurrence of `ch` and `none` when `ch` does not occur (in which case
`SplitN` yields a single part and the caller skips the line). -/
def splitFirst (ch : Char) : Str → Option (Str × Str)
  | [] => none
  | c :: rest =>
    if c = ch then some ([], rest)
    else (splitFirst ch rest).map (fun p => (c :: p.1, p.2))

/-- Go `strings.Split(data, "\n")`. -/
def splitLines : Str → List Str
  | [] => [[]]
  | c :: rest =>
    match splitLines rest with
    | [] => [[c]]
    | h :: t => if c = '\n' then [] :: h :: t else (c :: h) :: t

/-- Lookup in a Go map modelled as an association list
(`v, ok := m[k]` gives `some v` / `none`). -/
def lookupKey {α : Type} : List (Str × α) → Str → Option α
  | [], _ => none
  | (k0, v0) :: t, k => if k0 = k then some v0 else lookupKey t k

/-- Go map assignment `m[k] = v`: replace the binding of `k` if present,
otherwise add one. -/
def setKey {α : Type} : List (Str × α) → Str → α → List (Str × α)
  | [], k, v => [(k, v)]
  | (k0, v0) :: t, k, v =>
    if k0 = k then (k0, v) :: t else (k0, v0) :: setKey t k v

/-- Go `_, exists := m[k]`. -/
def containsKey {α : Type} (m : List (Str × α)) (k : Str) : Bool :=
  (lookupKey m k).isSome

/-- The dynamic values (`interface{}`) the code stores and inspects.
`other` stands for any dynamic type not otherwise listed, carrying the
name `%T` would print for it.  Float values are outside the embedding. -/
inductive GoAny where
  | str (s : Str)
  | int (v : Int)
  | int64 (v : Int)
  | bool (b : Bool)
  | map (m : List (Str × GoAny))
  | other (tname : Str)

/-- The `%T` type name of a dynamic value, as interpolated by
`fmt.Errorf("cannot convert %T to ...", value)`. -/
def typeName : GoAny → Str
  | .str _ => "string".data
  | .int _ => "int".data
  | .int64 _ => "int64".data
  | .bool _ => "bool".data
  | .map _ => ("map[string]interface \x7b\x7d").data
  | .other t => t

/-- Decimal value of a digit string. -/
def digitsVal (l : Str) : Nat :=
  l.foldl (fun a c => a * 10 + (c.toNat - 48)) 0

/-- Go `strconv.ParseInt(s, 10, 64)`: optional sign, nonempty run of
decimal digits, 64-bit signed range check; errors are the `strconv`
messages. -/
def parseIntBase10 (s : Str) : Except Str Int :=
  let signed : Bool × Str :=
    match s with
    | '+' :: r => (false, r)
    | '-' :: r => (true, r)
    | r => (false, r)
  if signed.2 = [] ∨ ¬ signed.2.all (fun c => decide ('0' ≤ c ∧ c ≤ '9')) then
    .error ("strconv.ParseInt: parsing \x22".data ++ s ++ "\x22: invalid syntax".data)
  else
    let v : Int := if signed.1 then -(digitsVal signed.2 : Int) else (digitsVal signed.2 : Int)
    if v < -(2 ^ 63) ∨ 2 ^ 63 - 1 < v then
      .error ("strconv.ParseInt: parsing \x22".data ++ s ++ "\x22: value out of range".data)
    else .ok v

/-- The strings Go `strconv.ParseBool` maps to `true`. -/
def goTrueLits : List Str :=
  ["1".data, "t".data, "T".data, "true".data, "TRUE".data, "True".data]

/-- The strings Go `strconv.ParseBool` maps to `false`. -/
def goFalseLits : List Str :=
  ["0".data, "f".data, "F".data, "false".data, "FALSE".data, "False".data]

/-- Go `strconv.ParseBool`. -/
def strconvParseBool (s : Str) : Except Str Bool :=
  if s ∈ goTrueLits then .ok true
  else if s ∈ goFalseLits then .ok false
  else .error ("strconv.ParseBool: parsing \x22".data ++ s ++ "\x22: invalid syntax".data)

namespace Types

/-- `ParseToInt` of the modular `types` package: strings go through
`strconv.ParseInt(strings.TrimSpace(v), 10, 64)`, `int` and `int64` pass
through; any other dynamic type is a `cannot convert %T to int` error.
(The source's `float64` case is outside the embedding.) -/
def ParseToInt : GoAny → Except Str Int
  | .str s => parseIntBase10 (trimSpace s)
  | .int v => .ok v
  | .int64 v => .ok v
  | v => .error ("cannot convert ".data ++ typeName v ++ " to int".data)

/-- `ParseToBool` of the modular `types` package: strings go through
`strconv.ParseBool(strings.TrimSpace(v))`, booleans pass through; any other
dynamic type is a `cannot convert %T to bool` error. -/
def ParseToBool : GoAny → Except Str Bool
  | .str s => strconvParseBool (trimSpace s)
  | .bool b => .ok b
  | v => .error ("cannot convert ".data ++ typeName v ++ " to bool".data)

end Types

example : Types.ParseToInt (.str " -5 ".data) = .ok (-5) := rfl
example : Types.ParseToInt (.str "12x".data) =
    .error "strconv.ParseInt: parsing \x2212x\x22: invalid syntax".data := rfl
example : Types.ParseToBool (.str " T ".data) = .ok true := rfl
example : Types.ParseToBool (.int 3) = .error "cannot convert int to bool".data := rfl
example : parseIntBase10 "9223372036854775808".data =
    .error "strconv.ParseInt: parsing \x229223372036854775808\x22: value out of range".data := rfl
example : parseIntBase10 "9223372036854775807".data = .ok 9223372036854775807 := rfl

/-- Parser state: the result map built so far and the `currentTopic`
variable (`[]` is Go's empty string, the initial value). -/
structure PState where
  result : List (Str × GoAny)
  topic : Str

namespace File

/-- One iteration of the line loop of `ParseFile` in the modular `file`
package.  Follows the Go control flow exactly: trim the line; a `;;` prefix
discards it; an inline `;;` truncates it (re-trimmed); an empty line is
skipped; a line starting with `(` and ending with `)` is a topic header
whose name is `strings.Trim(line, "()")`, creating an empty section only if
the key does not yet exist; a line starting with `/` is split on the first
`=` (`strings.SplitN`, skipped when no `=`), the key and value trimmed, the
value quote-trimmed, and stored into the current topic's map when the
current topic is nonempty and bound to a map, else at top level; anything
else is ignored.  `line2.drop 1` is `strings.TrimPrefix(line, "/")`, which
removes the single leading `/` known to be present in that branch. -/
def processLine (st : PState) (raw : Str) : PState :=
  let line := trimSpace raw
  if startsSemis line then st
  else
    let line2 := match indexOfSub [';', ';'] line with
      | some i => trimSpace (line.take i)
      | none => line
    if line2 = [] then st
    else if startsWithChar '(' line2 && endsWithChar ')' line2 then
      let t := trimParens line2
      ⟨if containsKey st.result t then st.result else setKey st.result t (GoAny.map []), t⟩
    else if startsWithChar '/' line2 then
      match splitFirst '=' (trimSpace (line2.drop 1)) with
      | none => st
      | some (a, b) =>
        let k := trimSpace a
        let v := trimQuotes (trimSpace b)
        if st.topic ≠ [] then
          match lookupKey st.result st.topic with
          | some (GoAny.map m) =>
            ⟨setKey st.result st.topic (GoAny.map (setKey m k (GoAny.str v))), st.topic⟩
          | _ => st
        else ⟨setKey st.result k (GoAny.str v), st.topic⟩
    else st

/-- The `for _, line := range lines` loop of `ParseFile`. -/
def runLines (st : PState) : List Str → PState
  | [] => st
  | raw :: rest => runLines (processLine st raw) rest

/-- `ParseFile` of the modular `file` package: split the data on newlines,
run the line loop from an empty map and empty current topic, and return
`(result, nil)` — the function has no failing path. -/
def ParseFile (data : Str) : Except Str (List (Str × GoAny)) :=
  .ok (runLines ⟨[], []⟩ (splitLines data)).result

/-- The document produced by `ParseFile` (its always-present `.ok` payload). -/
def docOf (data : Str) : List (Str × GoAny) :=
  (runLines ⟨[], []⟩ (splitLines data)).result

end File

example : File.docOf "/ a = 1\n(s)\n/ b = \x222\x22".data =
    [("a".data, .str "1".data), ("s".data, .map [("b".data, .str "2".data)])] := rfl
example : File.docOf ";; c\n/ a = 1 ;; x\n\n/ nute\n(t)".data =
    [("a".data, .str "1".data), ("t".data, .map [])] := rfl
example : File.docOf "/ t = x\n(t)\n/ k = v".data = [("t".data, .str "x".data)] := rfl
example : File.docOf "()(a)\n/ k = v".data =
    [("a".data, .map [("k".data, .str "v".data)])] := rfl
example : File.docOf "()\n/ k = v".data =
    [([], .map []), ("k".data, .str "v".data)] := rfl

mutual

/-- The value of a settable struct field, tagged by its reflective kind.
`intv`/`uintv` carry the bit width of the machine type (8, 16, 32 or 64;
`int`/`uint` are 64 on the targeted platforms).  Float-kinded fields are
outside the embedding. -/
inductive GoVal where
  | strv (s : Str)
  | intv (bits : Nat) (v : Int)
  | uintv (bits : Nat) (v : Nat)
  | boolv (b : Bool)
  | structv (fields : GoFields)

/-- The reflective view of a target struct: for each field in declaration
order, its name, its `niml` tag (`[]` when absent), its `CanSet` flag and
its current value. -/
inductive GoFields where
  | nil
  | cons (name tag : Str) (canSet : Bool) (val : GoVal) (rest : GoFields)

end

/-- Two's-complement truncation performed by `reflect.Value.SetInt` when
storing an `int64` into an `intN` field. -/
def signedTrunc (bits : Nat) (i : Int) : Int :=
  (i + 2 ^ (bits - 1)) % (2 : Int) ^ bits - 2 ^ (bits - 1)

/-- Go conversion `uint64(x)` of an `int64` `x`: reduction modulo `2^64`. -/
def int64ToUint64 (i : Int) : Nat :=
  (i % (2 : Int) ^ 64).toNat

/-- Truncation performed by `reflect.Value.SetUint` when storing a `uint64`
into a `uintN` field. -/
def unsignedTrunc (bits : Nat) (n : Nat) : Nat :=
  n % 2 ^ bits

/-- `fmt.Errorf("failed to set field %s: %w", field.Name, err)`, as built by
both fillers. -/
def wrapFieldErr (name : Str) (e : Str) : Str :=
  "failed to set field ".data ++ name ++ ": ".data ++ e

namespace Structs

/-- `getFieldKey`: the `niml` tag when nonempty, else the field name. -/
def getFieldKey (name tag : Str) : Str :=
  if tag ≠ [] then tag else name

mutual

/-- `setFieldValue` of the modular `structs` package, switching on the
field's reflective kind.  A string field takes a string value and silently
ignores any other; int/uint/bool fields coerce via the `types` package
helpers (uint fields store `uint64(intVal)`, wrapping negatives); a struct
field recurses into `FillStruct` when the value is a map and silently
ignores any other value.  The result pairs the field's value after the call
(unchanged when nothing was stored) with the returned error. -/
def setFieldValue : GoVal → GoAny → GoVal × Option Str
  | .strv s0, mv =>
    match mv with
    | .str s => (.strv s, none)
    | _ => (.strv s0, none)
  | .intv bits v0, mv =>
    match Types.ParseToInt mv with
    | .ok i => (.intv bits (signedTrunc bits i), none)
    | .error e => (.intv bits v0, some e)
  | .uintv bits v0, mv =>
    match Types.ParseToInt mv with
    | .ok i => (.uintv bits (unsignedTrunc bits (int64ToUint64 i)), none)
    | .error e => (.uintv bits v0, some e)
  | .boolv b0, mv =>
    match Types.ParseToBool mv with
    | .ok b => (.boolv b, none)
    | .error e => (.boolv b0, some e)
  | .structv fs, mv =>
    match mv with
    | .map m => let r := FillStruct m fs; (.structv r.1, r.2)
    | _ => (.structv fs, none)
termination_by structural v _ => v

/-- `FillStruct` of the modular `structs` package: walk the fields in
declaration order; skip fields that are not settable or whose key is absent
from the map; otherwise store the coerced value, and on a coercion error
return immediately with the error wrapped with the field name, leaving all
later fields (and the remaining iterations) untouched.  Returns the field
list after the call together with the error. -/
def FillStruct : List (Str × GoAny) → GoFields → GoFields × Option Str
  | _, .nil => (.nil, none)
  | cm, .cons name tag cs v rest =>
    if cs = false then
      let r := FillStruct cm rest
      (.cons name tag cs v r.1, r.2)
    else
      match lookupKey cm (getFieldKey name tag) with
      | none =>
        let r := FillStruct cm rest
        (.cons name tag cs v r.1, r.2)
      | some mv =>
        match setFieldValue v mv with
        | (v', some e) => (.cons name tag cs v' rest, some (wrapFieldErr name e))
        | (v', none) =>
          let r := FillStruct cm rest
          (.cons name tag cs v' r.1, r.2)

end

end Structs

example : Structs.FillStruct [("u".data, .str "-5".data)]
      (.cons "U".data "u".data true (.uintv 64 0) .nil) =
    (.cons "U".data "u".data true (.uintv 64 18446744073709551611) .nil, none) := rfl
example : Structs.FillStruct [("p".data, .str "x".data)]
      (.cons "P".data "p".data true (.intv 64 7) .nil) =
    (.cons "P".data "p".data true (.intv 64 7) .nil,
     some ("failed to set field P: strconv.ParseInt: parsing \x22x\x22: invalid syntax".data)) := rfl
example : Structs.FillStruct [("db".data, .map [("port".data, .str "81".data)])]
      (.cons "DB".data "db".data true
        (.structv (.cons "Port".data "port".data true (.intv 64 0) .nil)) .nil) =
    (.cons "DB".data "db".data true
      (.structv (.cons "Port".data "port".data true (.intv 64 81) .nil)) .nil, none) := rfl
example : Structs.FillStruct [("n".data, .str "300".data)]
      (.cons "N".data "n".data true (.intv 8 0) .nil) =
    (.cons "N".data "n".data true (.intv 8 44) .nil, none) := rfl

namespace NimlGo

/-- `parseToInt` of the monolithic file (same body as `types.ParseToInt`). -/
def parseToInt : GoAny → Except Str Int
  | .str s => parseIntBase10 (trimSpace s)
  | .int v => .ok v
  | .int64 v => .ok v
  | v => .error ("cannot convert ".data ++ typeName v ++ " to int".data)

/-- `parseToBool` of the monolithic file (same body as `types.ParseToBool`). -/
def parseToBool : GoAny → Except Str Bool
  | .str s => strconvParseBool (trimSpace s)
  | .bool b => .ok b
  | v => .error ("cannot convert ".data ++ typeName v ++ " to bool".data)

/-- `getFieldKey` of the monolithic file. -/
def getFieldKey (name tag : Str) : Str :=
  if tag ≠ [] then tag else name

/-- One iteration of the line loop of the monolithic `parseFile`
(same body as `file.ParseFile`'s loop). -/
def processLine (st : PState) (raw : Str) : PState :=
  let line := trimSpace raw
  if startsSemis line then st
  else
    let line2 := match indexOfSub [';', ';'] line with
      | some i => trimSpace (line.take i)
      | none => line
    if line2 = [] then st
    else if startsWithChar '(' line2 && endsWithChar ')' line2 then
      let t := trimParens line2
      ⟨if containsKey st.result t then st.result else setKey st.result t (GoAny.map []), t⟩
    else if startsWithChar '/' line2 then
      match splitFirst '=' (trimSpace (line2.drop 1)) with
      | none => st
      | some (a, b) =>
        let k := trimSpace a
        let v := trimQuotes (trimSpace b)
        if st.topic ≠ [] then
          match lookupKey st.result st.topic with
          | some (GoAny.map m) =>
            ⟨setKey st.result st.topic (GoAny.map (setKey m k (GoAny.str v))), st.topic⟩
          | _ => st
        else ⟨setKey st.result k (GoAny.str v), st.topic⟩
    else st

/-- The line loop of the monolithic `parseFile`. -/
def runLines (st : PState) : List Str → PState
  | [] => st
  | raw :: rest => runLines (processLine st raw) rest

/-- The monolithic `parseFile`. -/
def parseFile (data : Str) : Except Str (List (Str × GoAny)) :=
  .ok (runLines ⟨[], []⟩ (splitLines data)).result

mutual

/-- `setFieldValue` of the monolithic file (same body as the modular one,
calling the monolithic coercion helpers). -/
def setFieldValue : GoVal → GoAny → GoVal × Option Str
  | .strv s0, mv =>
    match mv with
    | .str s => (.strv s, none)
    | _ => (.strv s0, none)
  | .intv bits v0, mv =>
    match parseToInt mv with
    | .ok i => (.intv bits (signedTrunc bits i), none)
    | .error e => (.intv bits v0, some e)
  | .uintv bits v0, mv =>
    match parseToInt mv with
    | .ok i => (.uintv bits (unsignedTrunc bits (int64ToUint64 i)), none)
    | .error e => (.uintv bits v0, some e)
  | .boolv b0, mv =>
    match parseToBool mv with
    | .ok b => (.boolv b, none)
    | .error e => (.boolv b0, some e)
  | .structv fs, mv =>
    match mv with
    | .map m => let r := fillStruct m fs; (.structv r.1, r.2)
    | _ => (.structv fs, none)
termination_by structural v _ => v

/-- `fillStruct` of the monolithic file (same body as `structs.FillStruct`). -/
def fillStruct : List (Str × GoAny) → GoFields → GoFields × Option Str
  | _, .nil => (.nil, none)
  | cm, .cons name tag cs v rest =>
    if cs = false then
      let r := fillStruct cm rest
      (.cons name tag cs v r.1, r.2)
    else
      match lookupKey cm (getFieldKey name tag) with
      | none =>
        let r := fillStruct cm rest
        (.cons name tag cs v r.1, r.2)
      | some mv =>
        match setFieldValue v mv with
        | (v', some e) => (.cons name tag cs v' rest, some (wrapFieldErr name e))
        | (v', none) =>
          let r := fillStruct cm rest
          (.cons name tag cs v' r.1, r.2)

end

end NimlGo

example : NimlGo.parseToInt = Types.ParseToInt := rfl
example : NimlGo.parseToBool = Types.ParseToBool := rfl
example : NimlGo.getFieldKey = Structs.getFieldKey := rfl
example : ∀ st raw, NimlGo.processLine st raw = File.processLine st raw := fun _ _ => rfl

/-- The effective content of a raw input line after the comment handling of
the parser loop: trim, drop the whole line on a `;;` prefix, truncate at an
inline `;;` and re-trim.  `[]` means the line is skipped. -/
def effLine (raw : Str) : Str :=
  let line := trimSpace raw
  if startsSemis line then []
  else
    match indexOfSub [';', ';'] line with
    | some i => trimSpace (line.take i)
    | none => line

/-- Classification of an effective line as a topic header, with its topic
name (`strings.Trim(line, "()")`). -/
def hdOf (l : Str) : Option Str :=
  if l = [] then none
  else if startsWithChar '(' l && endsWithChar ')' l then some (trimParens l)
  else none

/-- Classification of an effective line as a key/value declaration, with the
key and value the parser would store. -/
def kvOf (l : Str) : Option (Str × Str) :=
  if l = [] then none
  else if startsWithChar '(' l && endsWithChar ')' l then none
  else if startsWithChar '/' l then
    match splitFirst '=' (trimSpace (l.drop 1)) with
    | none => none
    | some (a, b) => some (trimSpace a, trimQuotes (trimSpace b))
  else none

/-- The raw line is a topic header for topic `t`. -/
def isHeaderFor (t : Str) (raw : Str) : Bool :=
  decide (hdOf (effLine raw) = some t)

/-- The raw line is a key/value declaration whose stored key is `t`. -/
def isKVLineWithKey (t : Str) (raw : Str) : Bool :=
  match kvOf (effLine raw) with
  | some (k, _) => decide (k = t)
  | none => false

/-- The document binds key `t` to a section map. -/
def hasSection (doc : List (Str × GoAny)) (t : Str) : Bool :=
  match lookupKey doc t with
  | some (.map _) => true
  | _ => false

/-- Effect of a key/value line with key `k` and value `v` on the parser
state: inside a nonempty current topic the pair goes into that topic's map
when the topic is bound to a map (and is dropped otherwise); with no current
topic it is stored at top level. -/
def kvApply (st : PState) (k v : Str) : PState :=
  if st.topic ≠ [] then
    match lookupKey st.result st.topic with
    | some (GoAny.map m) =>
      ⟨setKey st.result st.topic (GoAny.map (setKey m k (GoAny.str v))), st.topic⟩
    | _ => st
  else ⟨setKey st.result k (GoAny.str v), st.topic⟩

/-- The action of the parser loop on an effective line (the part of the
loop body after comment handling). -/
def stepLine (st : PState) (l : Str) : PState :=
  if l = [] then st
  else if startsWithChar '(' l && endsWithChar ')' l then
    ⟨if containsKey st.result (trimParens l) then st.result
      else setKey st.result (trimParens l) (GoAny.map []), trimParens l⟩
  else if startsWithChar '/' l then
    match splitFirst '=' (trimSpace (l.drop 1)) with
    | none => st
    | some (a, b) => kvApply st (trimSpace a) (trimQuotes (trimSpace b))
  else st

theorem processLine_eq_stepLine (st : PState) (raw : Str) :
    File.processLine st raw = stepLine st (effLine raw) := by
  show (let line := trimSpace raw
    if startsSemis line then st
    else
      let line2 := match indexOfSub [';', ';'] line with
        | some i => trimSpace (line.take i)
        | none => line
      stepLine st line2) = _
  dsimp only [effLine]
  cases h1 : startsSemis (trimSpace raw)
  · simp only [Bool.false_eq_true, if_false]
  · rfl

theorem stepLine_cases (st : PState) (l : Str) :
    (hdOf l = none ∧ kvOf l = none ∧ stepLine st l = st)
    ∨ (∃ t, hdOf l = some t ∧ kvOf l = none ∧
        stepLine st l =
          ⟨if containsKey st.result t then st.result else setKey st.result t (GoAny.map []), t⟩)
    ∨ (∃ k v, kvOf l = some (k, v) ∧ hdOf l = none ∧ stepLine st l = kvApply st k v) := by
  unfold stepLine hdOf kvOf
  by_cases h1 : l = []
  · subst h1; exact Or.inl ⟨rfl, rfl, rfl⟩
  · rw [if_neg h1, if_neg h1, if_neg h1]
    by_cases h2 : (startsWithChar '(' l && endsWithChar ')' l) = true
    · rw [if_pos h2, if_pos h2, if_pos h2]
      exact Or.inr (Or.inl ⟨trimParens l, rfl, rfl, rfl⟩)
    · rw [if_neg h2, if_neg h2, if_neg h2]
      by_cases h3 : startsWithChar '/' l = true
      · rw [if_pos h3, if_pos h3]
        cases hsp : splitFirst '=' (trimSpace (l.drop 1)) with
        | none => exact Or.inl ⟨rfl, rfl, rfl⟩
        | some p =>
          obtain ⟨a, b⟩ := p
          exact Or.inr (Or.inr ⟨trimSpace a, trimQuotes (trimSpace b), rfl, rfl, rfl⟩)
      · rw [if_neg h3, if_neg h3]
        exact Or.inl ⟨rfl, rfl, rfl⟩

/-- Every line either leaves the state unchanged, or is a header (updating
the topic and creating the section only when the key is absent), or is a
key/value declaration applied by `kvApply`. -/
theorem processLine_cases (st : PState) (raw : Str) :
    (hdOf (effLine raw) = none ∧ kvOf (effLine raw) = none ∧ File.processLine st raw = st)
    ∨ (∃ t, hdOf (effLine raw) = some t ∧ kvOf (effLine raw) = none ∧
        File.processLine st raw =
          ⟨if containsKey st.result t then st.result else setKey st.result t (GoAny.map []), t⟩)
    ∨ (∃ k v, kvOf (effLine raw) = some (k, v) ∧ hdOf (effLine raw) = none ∧
        File.processLine st raw = kvApply st k v) := by
  rw [processLine_eq_stepLine]
  exact stepLine_cases st (effLine raw)

theorem lookupKey_setKey_self {α : Type} (m : List (Str × α)) (k : Str) (v : α) :
    lookupKey (setKey m k v) k = some v := by
  induction m with
  | nil => simp [setKey, lookupKey]
  | cons h t ih =>
    obtain ⟨k0, v0⟩ := h
    by_cases hk : k0 = k
    · simp [setKey, hk, lookupKey]
    · simp [setKey, hk, lookupKey, ih]

theorem lookupKey_setKey_ne {α : Type} (m : List (Str × α)) (k k' : Str) (v : α)
    (h : k ≠ k') : lookupKey (setKey m k v) k' = lookupKey m k' := by
  induction m with
  | nil =>
    simp only [setKey, lookupKey]
    rw [if_neg h]
  | cons hd t ih =>
    obtain ⟨k0, v0⟩ := hd
    by_cases hk : k0 = k
    · subst hk
      simp [setKey, lookupKey, h]
    · simp [setKey, hk, lookupKey, ih]

theorem runLines_append (a b : List Str) (st : PState) :
    File.runLines st (a ++ b) = File.runLines (File.runLines st a) b := by
  induction a generalizing st with
  | nil => rfl
  | cons raw rest ih => simp [File.runLines, ih]

/-- A key/value line never changes the current topic. -/
theorem kvApply_topic (st : PState) (k v : Str) : (kvApply st k v).topic = st.topic := by
  unfold kvApply
  by_cases h : st.topic = []
  · rw [if_neg (by simp [h])]
  · rw [if_pos h]
    split <;> rfl

/-- With no current topic, a key/value line stores at top level. -/
theorem kvApply_top (st : PState) (k v : Str) (h : st.topic = []) :
    kvApply st k v = ⟨setKey st.result k (GoAny.str v), st.topic⟩ := by
  unfold kvApply
  rw [if_neg]
  simp [h]

/-- Lines none of which is a topic header leave the current topic unchanged. -/
theorem runLines_topic (lines : List Str) (st : PState)
    (h : ∀ raw ∈ lines, hdOf (effLine raw) = none) :
    (File.runLines st lines).topic = st.topic := by
  induction lines generalizing st with
  | nil => rfl
  | cons raw rest ih =>
    have hr := h raw (by simp)
    have hrest : ∀ r ∈ rest, hdOf (effLine r) = none := fun r hm => h r (by simp [hm])
    rcases processLine_cases st raw with ⟨_, _, heq⟩ | ⟨t, ht, _, _⟩ | ⟨k, v, hkv, _, heq⟩
    · simp [File.runLines, heq, ih _ hrest]
    · rw [hr] at ht; cases ht
    · have : (File.processLine st raw).topic = st.topic := by rw [heq, kvApply_topic]
      simp only [File.runLines]
      rw [ih _ hrest, this]

/-- A top-level scalar binding survives any sequence of lines none of which
is a key/value line for that key: headers never overwrite an existing key,
and section writes only touch keys bound to maps. -/
theorem runLines_keeps_scalar (k sv : Str) :
    ∀ (lines : List Str) (st : PState),
      (∀ raw ∈ lines, isKVLineWithKey k raw = false) →
      lookupKey st.result k = some (GoAny.str sv) →
      lookupKey (File.runLines st lines).result k = some (GoAny.str sv) := by
  intro lines
  induction lines with
  | nil => intro st _ hk; exact hk
  | cons raw rest ih =>
    intro st h hk
    have hrest : ∀ r ∈ rest, isKVLineWithKey k r = false := fun r hm => h r (by simp [hm])
    have step : lookupKey (File.processLine st raw).result k = some (GoAny.str sv) := by
      rcases processLine_cases st raw with ⟨_, _, heq⟩ | ⟨t, ht, _, heq⟩ | ⟨k', v', hkv, _, heq⟩
      · rw [heq]; exact hk
      · rw [heq]
        by_cases hc : containsKey st.result t
        · simp only [hc, if_true]; exact hk
        · have htk : t ≠ k := by
            intro hEq
            subst hEq
            rw [containsKey, hk] at hc
            exact hc rfl
          simp only [hc, if_false, Bool.false_eq_true]
          rw [lookupKey_setKey_ne _ _ _ _ htk]
          exact hk
      · have hne : k' ≠ k := by
          have := h raw (by simp)
          rw [isKVLineWithKey, hkv] at this
          exact of_decide_eq_false this
        rw [heq]
        unfold kvApply
        by_cases htp : st.topic = []
        · rw [if_neg (by simp [htp])]
          exact (lookupKey_setKey_ne _ _ _ _ hne).trans hk
        · rw [if_pos htp]
          cases hlk : lookupKey st.result st.topic with
          | none => exact hk
          | some w =>
            cases w with
            | map m =>
              by_cases hsk : st.topic = k
              · rw [hsk, hk] at hlk; cases hlk
              · exact (lookupKey_setKey_ne _ _ _ _ hsk).trans hk
            | str s => exact hk
            | int v => exact hk
            | int64 v => exact hk
            | bool b => exact hk
            | other t => exact hk
    exact (ih (File.processLine st raw) hrest step)

/-- Effect of one line on whether key `t` is bound to a section, under the
invariant that `t` is never the key of a key/value line: the binding of `t`
becomes (or stays) a section exactly when it already was one or the line is
a header for `t`, and any binding of `t` remains a map. -/
theorem processLine_section (st : PState) (raw : Str) (t : Str)
    (hwk : isKVLineWithKey t raw = false)
    (hinv : ∀ v, lookupKey st.result t = some v → ∃ m, v = GoAny.map m) :
    hasSection (File.processLine st raw).result t =
      (hasSection st.result t || isHeaderFor t raw)
    ∧ (∀ v, lookupKey (File.processLine st raw).result t = some v → ∃ m, v = GoAny.map m) := by
  rcases processLine_cases st raw with ⟨hhd, _, heq⟩ | ⟨u, hu, _, heq⟩ | ⟨k', v', hkv, hhd, heq⟩
  · have hf : isHeaderFor t raw = false := by rw [isHeaderFor, hhd]; rfl
    rw [heq, hf, Bool.or_false]
    exact ⟨rfl, hinv⟩
  · by_cases hut : u = t
    · subst hut
      have hf : isHeaderFor u raw = true := by rw [isHeaderFor, hu]; simp
      rw [heq, hf, Bool.or_true]
      dsimp only
      by_cases hc : containsKey st.result u
      · rw [if_pos hc]
        refine ⟨?_, hinv⟩
        rw [containsKey] at hc
        cases hlk : lookupKey st.result u with
        | none => rw [hlk] at hc; cases hc
        | some w =>
          obtain ⟨m, hm⟩ := hinv w hlk
          subst hm
          rw [hasSection, hlk]
      · rw [if_neg hc]
        constructor
        · rw [hasSection, lookupKey_setKey_self]
        · intro v hv
          rw [lookupKey_setKey_self] at hv
          injection hv with h
          exact ⟨[], h.symm⟩
    · have hf : isHeaderFor t raw = false := by
        rw [isHeaderFor, hu]
        simp [hut]
      rw [heq, hf, Bool.or_false]
      dsimp only
      by_cases hc : containsKey st.result u
      · rw [if_pos hc]
        exact ⟨rfl, hinv⟩
      · rw [if_neg hc]
        have hl := lookupKey_setKey_ne st.result u t (GoAny.map []) hut
        constructor
        · rw [hasSection, hl, hasSection]
        · intro v hv
          rw [hl] at hv
          exact hinv v hv
  · have hne : k' ≠ t := by
      rw [isKVLineWithKey, hkv] at hwk
      exact of_decide_eq_false hwk
    have hf : isHeaderFor t raw = false := by rw [isHeaderFor, hhd]; rfl
    rw [heq, hf, Bool.or_false]
    unfold kvApply
    by_cases htp : st.topic = []
    · rw [if_neg (by simp [htp])]
      dsimp only
      have hl := lookupKey_setKey_ne st.result k' t (GoAny.str v') hne
      constructor
      · rw [hasSection, hl, hasSection]
      · intro v hv
        rw [hl] at hv
        exact hinv v hv
    · rw [if_pos htp]
      cases hlk : lookupKey st.result st.topic with
      | none => exact ⟨rfl, hinv⟩
      | some w =>
        cases w with
        | map m =>
          dsimp only
          by_cases hst : st.topic = t
          · subst hst
            constructor
            · rw [hasSection, lookupKey_setKey_self, hasSection, hlk]
            · intro v hv
              rw [lookupKey_setKey_self] at hv
              injection hv with h
              exact ⟨_, h.symm⟩
          · have hl := lookupKey_setKey_ne st.result st.topic t
              (GoAny.map (setKey m k' (GoAny.str v'))) hst
            constructor
            · rw [hasSection, hl, hasSection]
            · intro v hv
              rw [hl] at hv
              exact hinv v hv
        | str s => exact ⟨rfl, hinv⟩
        | int v => exact ⟨rfl, hinv⟩
        | int64 v => exact ⟨rfl, hinv⟩
        | bool b => exact ⟨rfl, hinv⟩
        | other tn => exact ⟨rfl, hinv⟩

/-- Over a whole run: under the invariant and with no key/value line keyed
`t`, the final document has a section at `t` iff the initial state already
had one or some line is a header for `t`. -/
theorem runLines_section_iff (t : Str) :
    ∀ (lines : List Str) (st : PState),
      (∀ raw ∈ lines, isKVLineWithKey t raw = false) →
      (∀ v, lookupKey st.result t = some v → ∃ m, v = GoAny.map m) →
      (hasSection (File.runLines st lines).result t =
        (hasSection st.result t || lines.any (isHeaderFor t))) := by
  intro lines
  induction lines with
  | nil => intro st _ _; simp [File.runLines]
  | cons raw rest ih =>
    intro st h hinv
    have hrest : ∀ r ∈ rest, isKVLineWithKey t r = false := fun r hm => h r (by simp [hm])
    obtain ⟨hstep, hinv'⟩ := processLine_section st raw t (h raw (by simp)) hinv
    show hasSection (File.runLines (File.processLine st raw) rest).result t = _
    rw [ih (File.processLine st raw) hrest hinv', hstep]
    simp [Bool.or_assoc]

theorem dropWhile_head_false {p : Char → Bool} {a : Char} {l : Str} (h : p a = false) :
    (a :: l).dropWhile p = a :: l := by
  simp [List.dropWhile_cons, h]

theorem length_dropWhile_le (p : Char → Bool) (l : Str) :
    (l.dropWhile p).length ≤ l.length := by
  induction l with
  | nil => simp
  | cons a t ih =>
    rw [List.dropWhile_cons]
    by_cases hp : p a = true
    · rw [if_pos hp]
      simp only [List.length_cons]
      omega
    · rw [if_neg (by simp [hp])]

theorem head_false_of_dropWhile_fix {p : Char → Bool} {a : Char} {l : Str}
    (h : (a :: l).dropWhile p = a :: l) : p a = false := by
  by_cases hp : p a = true
  · rw [List.dropWhile_cons, if_pos hp] at h
    have hl := length_dropWhile_le p l
    rw [h] at hl
    simp only [List.length_cons] at hl
    omega
  · rw [Bool.not_eq_true] at hp
    exact hp

theorem dropTrail_concat (p : Char → Bool) (l : Str) (c : Char) :
    dropTrail p (l ++ [c]) = if p c then dropTrail p l else l ++ [c] := by
  unfold dropTrail
  rw [List.reverse_append]
  simp only [List.reverse_cons, List.reverse_nil, List.nil_append, List.singleton_append]
  by_cases hp : p c = true
  · rw [List.dropWhile_cons, if_pos hp, if_pos hp]
  · rw [List.dropWhile_cons, if_neg (by simp [hp]), if_neg (by simp [hp])]
    simp

theorem dropWhile_fix_append {p : Char → Bool} {l : Str} (r : Str) (h : l.dropWhile p = l)
    (hne : l ≠ []) : (l ++ r).dropWhile p = l ++ r := by
  cases l with
  | nil => cases hne rfl
  | cons a t =>
    have ha := head_false_of_dropWhile_fix h
    rw [List.cons_append, dropWhile_head_false ha]

theorem indexOfSub_semis_none {l : Str} (h : ';' ∉ l) : indexOfSub [';', ';'] l = none := by
  induction l with
  | nil => rfl
  | cons c rest ih =>
    have hcne : ¬ (';' = c ∧ True) := by
      intro hc
      exact h (hc.1 ▸ List.mem_cons_self c rest)
    have hcc : c ≠ ';' := fun he => hcne ⟨he.symm, trivial⟩
    have hr : ';' ∉ rest := fun hm => h (List.mem_cons_of_mem c hm)
    have hpre : ([';', ';'].isPrefixOf (c :: rest)) = false := by
      simp [List.isPrefixOf]
      intro he
      exact absurd he.symm hcc
    unfold indexOfSub
    rw [if_neg (by simp [hpre])]
    show (indexOfSub [';', ';'] rest).map (· + 1) = none
    rw [ih hr]
    rfl

theorem splitFirst_first_eq {a : Str} (b : Str) (h : '=' ∉ a) :
    splitFirst '=' (a ++ '=' :: b) = some (a, b) := by
  induction a with
  | nil => simp [splitFirst]
  | cons c rest ih =>
    have hc : c ≠ '=' := fun he => h (he ▸ List.mem_cons_self c rest)
    have hr : '=' ∉ rest := fun hm => h (List.mem_cons_of_mem c hm)
    rw [List.cons_append]
    unfold splitFirst
    rw [if_neg hc, ih hr]
    rfl

/-- The text of a well-formed key/value line `/ k = "v"`. -/
def kvLine (k v : Str) : Str :=
  ('/' :: ' ' :: k ++ ' ' :: '=' :: ' ' :: '\x22' :: v) ++ ['\x22']

theorem trimSpace_sandwich {a b : Char} (mid : Str)
    (ha : goIsSpace a = false) (hb : goIsSpace b = false) :
    trimSpace ((a :: mid) ++ [b]) = (a :: mid) ++ [b] := by
  unfold trimSpace
  rw [List.cons_append, List.dropWhile_cons_of_neg (by simp [ha]),
    ← List.cons_append, dropTrail_concat, if_neg (by simp [hb])]

theorem kvLine_concat_form (k v : Str) :
    kvLine k v = ('/' :: (' ' :: (k ++ (' ' :: '=' :: ' ' :: '\x22' :: v)))) ++ ['\x22'] := by
  simp [kvLine]

theorem trimSpace_kvLine (k v : Str) : trimSpace (kvLine k v) = kvLine k v := by
  rw [kvLine_concat_form]
  exact trimSpace_sandwich _ (by decide) (by decide)

theorem effLine_kvLine (k v : Str) (hks : ';' ∉ k) (hvs : ';' ∉ v) :
    effLine (kvLine k v) = kvLine k v := by
  have hsem : ';' ∉ kvLine k v := by
    intro hm
    simp only [kvLine, List.mem_append, List.mem_cons, List.mem_singleton] at hm
    casesm* _ ∨ _
    all_goals first
      | exact hks (by assumption)
      | exact hvs (by assumption)
      | exact absurd (by assumption : (';' : Char) = '/') (by decide)
      | exact absurd (by assumption : (';' : Char) = ' ') (by decide)
      | exact absurd (by assumption : (';' : Char) = '=') (by decide)
      | exact absurd (by assumption : (';' : Char) = '\x22') (by decide)
      | exact absurd (by assumption : (';' : Char) ∈ ([] : Str)) (by simp)
  unfold effLine
  rw [trimSpace_kvLine]
  rw [if_neg (by rw [show startsSemis (kvLine k v) = false from by
      rw [kvLine_concat_form]; rfl]; exact Bool.false_ne_true),
    indexOfSub_semis_none hsem]

theorem kvOf_kvLine (k v : Str) (hk0 : k ≠ [])
    (hk1 : k.dropWhile goIsSpace = k) (hk2 : dropTrail goIsSpace k = k)
    (hq1 : v.dropWhile isQuote = v) (hq2 : dropTrail isQuote v = v)
    (hke : '=' ∉ k) :
    kvOf (kvLine k v) = some (k, v) := by
  have hd1 : (kvLine k v).drop 1 =
      (' ' :: (k ++ (' ' :: '=' :: ' ' :: '\x22' :: v))) ++ ['\x22'] := by
    rw [kvLine_concat_form]
    rfl
  have hrest : trimSpace ((' ' :: (k ++ (' ' :: '=' :: ' ' :: '\x22' :: v))) ++ ['\x22']) =
      k ++ (' ' :: '=' :: ' ' :: '\x22' :: (v ++ ['\x22'])) := by
    unfold trimSpace
    rw [List.cons_append, List.dropWhile_cons_of_pos (by decide : goIsSpace ' ' = true),
      List.append_assoc, dropWhile_fix_append _ hk1 hk0, ← List.append_assoc,
      dropTrail_concat, if_neg (by decide)]
    simp [List.append_assoc]
  have hsplit : splitFirst '=' (k ++ (' ' :: '=' :: ' ' :: '\x22' :: (v ++ ['\x22']))) =
      some (k ++ [' '], ' ' :: ('\x22' :: (v ++ ['\x22']))) := by
    have he : '=' ∉ k ++ [' '] := by
      intro hm
      rcases List.mem_append.mp hm with h | h
      · exact hke h
      · exact absurd (List.mem_singleton.mp h) (by decide)
    have hshape : k ++ (' ' :: '=' :: ' ' :: '\x22' :: (v ++ ['\x22'])) =
        (k ++ [' ']) ++ ('=' :: (' ' :: ('\x22' :: (v ++ ['\x22'])))) := by
      simp
    rw [hshape, splitFirst_first_eq _ he]
  have hkey : trimSpace (k ++ [' ']) = k := by
    unfold trimSpace
    rw [dropWhile_fix_append _ hk1 hk0, dropTrail_concat, if_pos (by decide), hk2]
  have hval : trimQuotes (trimSpace (' ' :: ('\x22' :: (v ++ ['\x22'])))) = v := by
    have h1 : trimSpace (' ' :: ('\x22' :: (v ++ ['\x22']))) = '\x22' :: (v ++ ['\x22']) := by
      unfold trimSpace
      rw [List.dropWhile_cons_of_pos (by decide : goIsSpace ' ' = true),
        List.dropWhile_cons_of_neg (by decide : ¬ goIsSpace '\x22' = true)]
      conv_lhs => rw [← List.cons_append]
      rw [dropTrail_concat, if_neg (by decide), List.cons_append]
    rw [h1]
    unfold trimQuotes
    rw [show ('\x22' :: (v ++ ['\x22'])).dropWhile isQuote =
      (v ++ ['\x22']).dropWhile isQuote from List.dropWhile_cons_of_pos (by decide)]
    rcases v with _ | ⟨a, t⟩
    · rfl
    · have ha := head_false_of_dropWhile_fix hq1
      rw [List.cons_append, List.dropWhile_cons_of_neg (by simp [ha]), ← List.cons_append,
        dropTrail_concat, if_pos (by decide)]
      exact hq2
  unfold kvOf
  rw [if_neg (show ¬ (kvLine k v = []) from by simp [kvLine]),
    if_neg (by
      rw [show (startsWithChar '(' (kvLine k v) && endsWithChar ')' (kvLine k v)) =
        (false && endsWithChar ')' (kvLine k v)) from rfl, Bool.false_and]
      exact Bool.false_ne_true),
    if_pos (show startsWithChar '/' (kvLine k v) = true from rfl), hd1, hrest, hsplit]
  show some (trimSpace (k ++ [' ']),
    trimQuotes (trimSpace (' ' :: ('\x22' :: (v ++ ['\x22']))))) = some (k, v)
  rw [hkey, hval]

/-- Concatenation of field lists (used to speak about the fields before and
after a failing field). -/
def appendF : GoFields → GoFields → GoFields
  | .nil, b => b
  | .cons n t c v rest, b => .cons n t c v (appendF rest b)

/-- The field loop is compositional: if the first block of fields fills
without error, filling the concatenation fills the first block, then the
second, and returns the second block's error state. -/
theorem FillStruct_append (cm : List (Str × GoAny)) :
    ∀ (a b a' : GoFields), Structs.FillStruct cm a = (a', none) →
      Structs.FillStruct cm (appendF a b) =
        (appendF a' (Structs.FillStruct cm b).1, (Structs.FillStruct cm b).2)
  | .nil, b, a', h => by
    simp only [Structs.FillStruct] at h
    injection h with h1 _
    subst h1
    simp only [appendF]
  | .cons n t c v rest, b, a', h => by
    simp only [appendF, Structs.FillStruct] at h ⊢
    by_cases hc : c = false
    · rw [if_pos hc] at h ⊢
      cases hr : Structs.FillStruct cm rest with
      | mk r1 r2 =>
        try rw [hr] at h
        try dsimp only at h ⊢
        injection h with h1 h2
        subst h2
        rw [FillStruct_append cm rest b r1 hr, ← h1]
        try rfl
    · rw [if_neg hc] at h ⊢
      cases hlk : lookupKey cm (Structs.getFieldKey n t) with
      | none =>
        try rw [hlk] at h
        try rw [hlk]
        try dsimp only at h ⊢
        cases hr : Structs.FillStruct cm rest with
        | mk r1 r2 =>
          try rw [hr] at h
          try dsimp only at h ⊢
          injection h with h1 h2
          subst h2
          rw [FillStruct_append cm rest b r1 hr, ← h1]
          try rfl
      | some mv =>
        try rw [hlk] at h
        try rw [hlk]
        try dsimp only at h ⊢
        cases hsv : Structs.setFieldValue v mv with
        | mk v2 e2 =>
          try rw [hsv] at h
          try rw [hsv]
          try dsimp only at h ⊢
          cases e2 with
          | some err => simp at h
          | none =>
            try dsimp only at h ⊢
            cases hr : Structs.FillStruct cm rest with
            | mk r1 r2 =>
              try rw [hr] at h
              try dsimp only at h ⊢
              injection h with h1 h2
              subst h2
              rw [FillStruct_append cm rest b r1 hr, ← h1]
              try rfl

theorem runLines_mono (lines : List Str) : ∀ st,
    NimlGo.runLines st lines = File.runLines st lines := by
  induction lines with
  | nil => intro st; rfl
  | cons raw rest ih =>
    intro st
    show NimlGo.runLines (NimlGo.processLine st raw) rest = _
    rw [show NimlGo.processLine st raw = File.processLine st raw from rfl, ih]
    rfl

mutual

theorem setFieldValue_mono_eq : ∀ (v : GoVal) (mv : GoAny),
    NimlGo.setFieldValue v mv = Structs.setFieldValue v mv
  | .strv s0, mv => by cases mv <;> rfl
  | .intv bits v0, mv => by
    simp only [NimlGo.setFieldValue, Structs.setFieldValue]
    rw [show NimlGo.parseToInt mv = Types.ParseToInt mv from rfl]
  | .uintv bits v0, mv => by
    simp only [NimlGo.setFieldValue, Structs.setFieldValue]
    rw [show NimlGo.parseToInt mv = Types.ParseToInt mv from rfl]
  | .boolv b0, mv => by
    simp only [NimlGo.setFieldValue, Structs.setFieldValue]
    rw [show NimlGo.parseToBool mv = Types.ParseToBool mv from rfl]
  | .structv fs, mv => by
    cases mv with
    | map m =>
      simp only [NimlGo.setFieldValue, Structs.setFieldValue]
      rw [fillStruct_mono_eq m fs]
    | str s => rfl
    | int v => rfl
    | int64 v => rfl
    | bool b => rfl
    | other t => rfl

theorem fillStruct_mono_eq : ∀ (cm : List (Str × GoAny)) (fs : GoFields),
    NimlGo.fillStruct cm fs = Structs.FillStruct cm fs
  | _, .nil => rfl
  | cm, .cons name tag cs v rest => by
    simp only [NimlGo.fillStruct, Structs.FillStruct, fillStruct_mono_eq cm rest,
      setFieldValue_mono_eq v, show NimlGo.getFieldKey = Structs.getFieldKey from rfl]

end

theorem containsKey_of_hasSection {doc : List (Str × GoAny)} {t : Str}
    (h : hasSection doc t = true) : containsKey doc t = true := by
  rw [containsKey]
  rw [hasSection] at h
  cases hlk : lookupKey doc t with
  | none => rw [hlk] at h; simp at h
  | some w => rfl

theorem goLits_disjoint : ∀ x ∈ goTrueLits, x ∉ goFalseLits := by decide

theorem strconvParseBool_ok_true_iff (x : Str) :
    strconvParseBool x = Except.ok true ↔ x ∈ goTrueLits := by
  unfold strconvParseBool
  by_cases ht : x ∈ goTrueLits
  · rw [if_pos ht]
    simp [ht]
  · rw [if_neg ht]
    by_cases hf : x ∈ goFalseLits
    · rw [if_pos hf]
      simp [ht]
    · rw [if_neg hf]
      simp [ht]

theorem strconvParseBool_ok_false_iff (x : Str) :
    strconvParseBool x = Except.ok false ↔ x ∈ goFalseLits := by
  unfold strconvParseBool
  by_cases ht : x ∈ goTrueLits
  · rw [if_pos ht]
    have hnf : x ∉ goFalseLits := goLits_disjoint x ht
    simp [hnf]
  · rw [if_neg ht]
    by_cases hf : x ∈ goFalseLits
    · rw [if_pos hf]
      simp [hf]
    · rw [if_neg hf]
      simp [hf]

/-- Claim C1 (corrected): with the proviso that no key/value line of the text
has key `t`, the parsed document contains a SectionMapping under key `t` iff
a topic header line for `t` appeared in the text.  Without the proviso the
claim is false (see the counterexample): a top-level scalar stored under `t`
before the header `(t)` prevents the section from ever being created. -/
theorem claim_c1_theorem (data t : Str)
    (h : ∀ raw ∈ splitLines data, isKVLineWithKey t raw = false) :
    hasSection (File.docOf data) t = true ↔
      (splitLines data).any (isHeaderFor t) = true := by
  have hrun := runLines_section_iff t (splitLines data) ⟨[], []⟩ h
    (fun v hv => Option.noConfusion hv)
  rw [show File.docOf data = (File.runLines ⟨[], []⟩ (splitLines data)).result from rfl,
    hrun, show hasSection (PState.mk [] []).result t = false from rfl, Bool.false_or]

theorem claim_c1_witness :
    hasSection (File.docOf ("(t)\n/ a = 1".data)) ("t".data) = true :=
  (claim_c1_theorem ("(t)\n/ a = 1".data) ("t".data) (by decide)).mpr (by decide)

/-- Claim C1 counterexample: in `/ t = x` followed by `(t)` followed by
`/ k = v`, a topic header line for `t` appears, yet the resulting document
has no SectionMapping under `t` (the key stays bound to the scalar `x`, and
the later key/value line is silently dropped). -/
theorem claim_c1_counterexample :
    (splitLines ("/ t = x\n(t)\n/ k = v".data)).any (isHeaderFor ("t".data)) = true ∧
    hasSection (File.docOf ("/ t = x\n(t)\n/ k = v".data)) ("t".data) = false ∧
    File.docOf ("/ t = x\n(t)\n/ k = v".data) = [("t".data, GoAny.str "x".data)] :=
  ⟨rfl, rfl, rfl⟩

/-- Claim C2 (code_bug): for a `uint64`-kinded field bound to the source
value `"-5"`, the fill succeeds with no error and silently stores the
wrapped value `2^64 - 5 = 18446744073709551611` (the Go code runs
`SetUint(uint64(intVal))` on the successfully parsed `-5`), contradicting
the spec's "coercion never silently truncates; a failed conversion is an
error". -/
theorem claim_c2_theorem :
    Structs.FillStruct [("u".data, GoAny.str "-5".data)]
      (GoFields.cons "U".data "u".data true (GoVal.uintv 64 0) GoFields.nil) =
    (GoFields.cons "U".data "u".data true
      (GoVal.uintv 64 18446744073709551611) GoFields.nil, none) := rfl

/-- Claim C4 (confirmed): parsing never fails — `ParseFile` always returns a
document — and any line whose effective content is neither a topic header
nor a key/value declaration with a `=` (malformed or unmatched) leaves the
parser state unchanged, producing no entry. -/
theorem claim_c4_theorem :
    (∀ data : Str, ∃ d, File.ParseFile data = Except.ok d) ∧
    (∀ (st : PState) (raw : Str), hdOf (effLine raw) = none → kvOf (effLine raw) = none →
      File.processLine st raw = st) := by
  constructor
  · intro data
    exact ⟨_, rfl⟩
  · intro st raw hh hk
    rcases processLine_cases st raw with ⟨_, _, heq⟩ | ⟨u, hu, _, _⟩ | ⟨k, v, hkv, _, _⟩
    · exact heq
    · rw [hh] at hu; cases hu
    · rw [hk] at hkv; cases hkv

theorem claim_c4_witness :
    (∃ d, File.ParseFile ("/ k".data) = Except.ok d) ∧
    File.processLine ⟨[], []⟩ ("/ k".data) = ⟨[], []⟩ :=
  ⟨claim_c4_theorem.1 ("/ k".data),
   claim_c4_theorem.2 ⟨[], []⟩ ("/ k".data) (by decide) (by decide)⟩

/-- Claim C8 (confirmed): parsing is deterministic — two parses of the same
text yield structurally equal documents: the same association list, hence
the same lookup result for every key. -/
theorem claim_c8_theorem (data : Str) (d1 d2 : List (Str × GoAny))
    (h1 : File.ParseFile data = Except.ok d1) (h2 : File.ParseFile data = Except.ok d2) :
    d1 = d2 ∧ ∀ k, lookupKey d1 k = lookupKey d2 k := by
  have h := h1.symm.trans h2
  injection h with h
  exact ⟨h, fun k => by rw [h]⟩

theorem claim_c8_witness :
    ([("a".data, GoAny.str "1".data)] : List (Str × GoAny)) =
      [("a".data, GoAny.str "1".data)] ∧
    ∀ k, lookupKey [("a".data, GoAny.str "1".data)] k =
      lookupKey [("a".data, GoAny.str "1".data)] k :=
  claim_c8_theorem ("/ a = 1".data) _ _ rfl rfl

/-- Claim C9 (confirmed): the monolithic and modular implementations are
equivalent — the monolithic `parseFile` returns the same document as the
modular `file.ParseFile` on every text, and the monolithic `fillStruct`
produces the same field values and the same error outcome as the modular
`structs.FillStruct` on every document and target record. -/
theorem claim_c9_theorem :
    (∀ data : Str, NimlGo.parseFile data = File.ParseFile data) ∧
    (∀ (cm : List (Str × GoAny)) (fs : GoFields),
      NimlGo.fillStruct cm fs = Structs.FillStruct cm fs) := by
  constructor
  · intro data
    show Except.ok (NimlGo.runLines ⟨[], []⟩ (splitLines data)).result = _
    rw [runLines_mono]
    rfl
  · exact fun cm fs => fillStruct_mono_eq cm fs

/-- Claim C3 (confirmed): error propagation is fail-fast.  If the fields
`pre` all fill without error (yielding the written values `pre'`), and the
next field (settable, with its key bound to `mv` in the map) fails its
coercion with inner error `e`, then filling the whole list stops there: the
result keeps the new values of the earlier fields, leaves the failing field
and every later field at their prior values, and returns the inner error
wrapped with the failing field's name. -/
theorem claim_c3_theorem (cm : List (Str × GoAny)) (pre post pre' : GoFields)
    (name tag : Str) (val v' : GoVal) (mv : GoAny) (e : Str)
    (hpre : Structs.FillStruct cm pre = (pre', none))
    (hlk : lookupKey cm (Structs.getFieldKey name tag) = some mv)
    (hsv : Structs.setFieldValue val mv = (v', some e)) :
    Structs.FillStruct cm (appendF pre (GoFields.cons name tag true val post)) =
      (appendF pre' (GoFields.cons name tag true v' post),
       some (wrapFieldErr name e)) := by
  rw [FillStruct_append cm pre (GoFields.cons name tag true val post) pre' hpre]
  have hB : Structs.FillStruct cm (GoFields.cons name tag true val post) =
      (GoFields.cons name tag true v' post, some (wrapFieldErr name e)) := by
    simp only [Structs.FillStruct]
    rw [if_neg (by simp), hlk]
    dsimp only
    rw [hsv]
  rw [hB]

theorem claim_c3_witness :
    Structs.FillStruct [("a".data, GoAny.str "1".data), ("b".data, GoAny.str "x".data)]
      (appendF (GoFields.cons "A".data "a".data true (GoVal.intv 64 0) GoFields.nil)
        (GoFields.cons "B".data "b".data true (GoVal.intv 64 5)
          (GoFields.cons "C".data "a".data true (GoVal.intv 64 7) GoFields.nil))) =
    (appendF (GoFields.cons "A".data "a".data true (GoVal.intv 64 1) GoFields.nil)
      (GoFields.cons "B".data "b".data true (GoVal.intv 64 5)
        (GoFields.cons "C".data "a".data true (GoVal.intv 64 7) GoFields.nil)),
     some (wrapFieldErr "B".data
       ("strconv.ParseInt: parsing \x22x\x22: invalid syntax".data))) :=
  claim_c3_theorem [("a".data, GoAny.str "1".data), ("b".data, GoAny.str "x".data)]
    (GoFields.cons "A".data "a".data true (GoVal.intv 64 0) GoFields.nil)
    (GoFields.cons "C".data "a".data true (GoVal.intv 64 7) GoFields.nil)
    (GoFields.cons "A".data "a".data true (GoVal.intv 64 1) GoFields.nil)
    "B".data "b".data (GoVal.intv 64 5) (GoVal.intv 64 5)
    (GoAny.str "x".data)
    ("strconv.ParseInt: parsing \x22x\x22: invalid syntax".data)
    rfl rfl rfl

/-- The topic-name computation the claim describes: strip all leading `(`
characters and all trailing `)` characters (stated for comparison with the
source's `strings.Trim(line, "()")`, which strips characters of the cutset
at both ends). -/
def claimTopicName (l : Str) : Str :=
  dropTrail (fun c => decide (c = ')')) (l.dropWhile (fun c => decide (c = '(')))

/-- Claim C5 counterexample: for the trimmed line `()(a)` — which starts
with `(` and ends with `)` — the code's cutset trim yields topic `a`, while
stripping all leading `(` and all trailing `)` yields `)(a`; the parsed
document of `()(a)` followed by `/ k = v` files `k` under section `a`. -/
theorem claim_c5_counterexample :
    startsWithChar '(' ("()(a)".data) = true ∧
    endsWithChar ')' ("()(a)".data) = true ∧
    trimSpace ("()(a)".data) = "()(a)".data ∧
    hdOf ("()(a)".data) = some ("a".data) ∧
    claimTopicName ("()(a)".data) = ")(a".data ∧
    trimParens ("()(a)".data) ≠ claimTopicName ("()(a)".data) ∧
    File.docOf ("()(a)\n/ k = v".data) =
      [("a".data, GoAny.map [("k".data, GoAny.str "v".data)])] :=
  ⟨rfl, rfl, rfl, rfl, rfl, by decide, rfl⟩

/-- Claim C5 (corrected): for every line classified as a topic header, the
topic becomes `strings.Trim(line, "()")` — stripping from both ends all
characters that are `(` or `)` (so `((a))` yields `a`, but also `()(a)`
yields `a`); a repeated header for an already-seen topic reuses the
existing section unchanged, and a key/value line under an active topic adds
to that same section map rather than replacing it. -/
theorem claim_c5_theorem :
    (∀ (st : PState) (raw t : Str), hdOf (effLine raw) = some t →
      (File.processLine st raw).topic = t ∧
      (hasSection st.result t = true → File.processLine st raw = ⟨st.result, t⟩)) ∧
    (∀ (st : PState) (raw k v : Str) (m : List (Str × GoAny)),
      kvOf (effLine raw) = some (k, v) →
      lookupKey st.result st.topic = some (GoAny.map m) → st.topic ≠ [] →
      File.processLine st raw =
        ⟨setKey st.result st.topic (GoAny.map (setKey m k (GoAny.str v))), st.topic⟩) ∧
    hdOf ("((a))".data) = some ("a".data) ∧
    (∀ l : Str, hdOf l = some (trimParens l) ∨ hdOf l = none) := by
  refine ⟨?_, ?_, rfl, ?_⟩
  · intro st raw t ht
    rcases processLine_cases st raw with ⟨hh, _, _⟩ | ⟨u, hu, _, heq⟩ | ⟨_, _, _, hh, _⟩
    · rw [ht] at hh; cases hh
    · rw [ht] at hu
      injection hu with hu
      subst hu
      refine ⟨by rw [heq], fun hs => ?_⟩
      rw [heq, if_pos (containsKey_of_hasSection hs)]
    · rw [ht] at hh; cases hh
  · intro st raw k v m hkv hlk htp
    rcases processLine_cases st raw with ⟨_, hk2, _⟩ | ⟨_, _, hk2, _⟩ | ⟨k2, v2, hkv2, _, heq⟩
    · rw [hkv] at hk2; cases hk2
    · rw [hkv] at hk2; cases hk2
    · have hp := hkv2.symm.trans hkv
      injection hp with hp
      injection hp with e1 e2
      subst e1
      subst e2
      rw [heq]
      unfold kvApply
      rw [if_pos htp, hlk]
  · intro l
    unfold hdOf
    by_cases h0 : l = []
    · right; rw [if_pos h0]
    · rw [if_neg h0]
      by_cases hh : (startsWithChar '(' l && endsWithChar ')' l) = true
      · left; rw [if_pos hh]
      · right; rw [if_neg hh]

theorem claim_c5_witness :
    (File.processLine ⟨[("s".data, GoAny.map [])], "q".data⟩ ("(s)".data)).topic = "s".data ∧
    File.processLine ⟨[("s".data, GoAny.map [])], "q".data⟩ ("(s)".data) =
      ⟨[("s".data, GoAny.map [])], "s".data⟩ ∧
    File.processLine ⟨[("s".data, GoAny.map [])], "s".data⟩ ("/ a = b".data) =
      ⟨[("s".data, GoAny.map [("a".data, GoAny.str "b".data)])], "s".data⟩ := by
  refine ⟨(claim_c5_theorem.1 _ _ _ (by decide)).1,
    (claim_c5_theorem.1 _ _ _ (by decide)).2 (by decide), ?_⟩
  have h := claim_c5_theorem.2.1 ⟨[("s".data, GoAny.map [])], "s".data⟩ ("/ a = b".data)
    ("a".data) ("b".data) [] (by decide) rfl (by decide)
  exact h

/-- Claim C10 (confirmed): a header line consisting only of parenthesis
characters (such as `()`) sets the current topic to the empty string and
still creates an empty SectionMapping under the key `""` when absent; and
every key/value line processed while the current topic is the empty string
is stored at top level as a scalar, not inside the empty-named section. -/
theorem claim_c10_theorem :
    (∀ (st : PState) (raw : Str), hdOf (effLine raw) = some [] →
      (File.processLine st raw).topic = [] ∧
      (lookupKey st.result [] = none →
        lookupKey (File.processLine st raw).result [] = some (GoAny.map []))) ∧
    (∀ (st : PState) (raw k v : Str), st.topic = [] → kvOf (effLine raw) = some (k, v) →
      File.processLine st raw = ⟨setKey st.result k (GoAny.str v), st.topic⟩) ∧
    File.docOf ("()\n/ k = v".data) = [([], GoAny.map []), ("k".data, GoAny.str "v".data)] := by
  refine ⟨?_, ?_, rfl⟩
  · intro st raw ht
    rcases processLine_cases st raw with ⟨hh, _, _⟩ | ⟨u, hu, _, heq⟩ | ⟨_, _, _, hh, _⟩
    · rw [ht] at hh; cases hh
    · rw [ht] at hu
      injection hu with hu
      subst hu
      refine ⟨by rw [heq], fun hnone => ?_⟩
      have hc : containsKey st.result ([] : Str) = false := by rw [containsKey, hnone]; rfl
      rw [heq]
      dsimp only
      rw [if_neg (by simp [hc]), lookupKey_setKey_self]
    · rw [ht] at hh; cases hh
  · intro st raw k v htp hkv
    rcases processLine_cases st raw with ⟨_, hk2, _⟩ | ⟨_, _, hk2, _⟩ | ⟨k2, v2, hkv2, _, heq⟩
    · rw [hkv] at hk2; cases hk2
    · rw [hkv] at hk2; cases hk2
    · have hp := hkv2.symm.trans hkv
      injection hp with hp
      injection hp with e1 e2
      subst e1
      subst e2
      rw [heq, kvApply_top st k2 v2 htp]

theorem claim_c10_witness :
    (File.processLine ⟨[], "x".data⟩ ("()".data)).topic = [] ∧
    lookupKey (File.processLine ⟨[], "x".data⟩ ("()".data)).result [] =
      some (GoAny.map []) ∧
    File.processLine ⟨[([], GoAny.map [])], []⟩ ("/ k = v".data) =
      ⟨[([], GoAny.map []), ("k".data, GoAny.str "v".data)], []⟩ := by
  refine ⟨(claim_c10_theorem.1 _ _ (by decide)).1,
    (claim_c10_theorem.1 _ _ (by decide)).2 rfl, ?_⟩
  exact claim_c10_theorem.2.1 ⟨[([], GoAny.map [])], []⟩ ("/ k = v".data)
    ("k".data) ("v".data) rfl (by decide)

/-- Claim C6 (confirmed): a well-formed key/value line `/ k = "v"`
(normalized key: nonempty, space-trimmed, no `=`, no `;`; value:
quote-trimmed, no `;`) appearing before any topic header, with no other
key/value line for `k` afterwards, puts the scalar `v` — quotes stripped,
key and value whitespace-trimmed — under `k` at the top level of the
document. -/
theorem claim_c6_theorem (data : Str) (pre post : List Str) (k v : Str)
    (hsplitl : splitLines data = pre ++ kvLine k v :: post)
    (hpre : ∀ raw ∈ pre, hdOf (effLine raw) = none)
    (hpost : ∀ raw ∈ post, isKVLineWithKey k raw = false)
    (hk0 : k ≠ []) (hk1 : k.dropWhile goIsSpace = k) (hk2 : dropTrail goIsSpace k = k)
    (hq1 : v.dropWhile isQuote = v) (hq2 : dropTrail isQuote v = v)
    (hke : '=' ∉ k) (hks : ';' ∉ k) (hvs : ';' ∉ v) :
    lookupKey (File.docOf data) k = some (GoAny.str v) := by
  have hkv : kvOf (effLine (kvLine k v)) = some (k, v) := by
    rw [effLine_kvLine k v hks hvs]
    exact kvOf_kvLine k v hk0 hk1 hk2 hq1 hq2 hke
  rw [show File.docOf data = (File.runLines ⟨[], []⟩ (splitLines data)).result from rfl,
    hsplitl, runLines_append pre (kvLine k v :: post) ⟨[], []⟩]
  have htopic : (File.runLines ⟨[], []⟩ pre).topic = [] := runLines_topic pre ⟨[], []⟩ hpre
  show lookupKey (File.runLines
    (File.processLine (File.runLines ⟨[], []⟩ pre) (kvLine k v)) post).result k = _
  have hstep : File.processLine (File.runLines ⟨[], []⟩ pre) (kvLine k v) =
      ⟨setKey (File.runLines ⟨[], []⟩ pre).result k (GoAny.str v),
       (File.runLines ⟨[], []⟩ pre).topic⟩ := by
    rcases processLine_cases (File.runLines ⟨[], []⟩ pre) (kvLine k v) with
      ⟨_, hk2', _⟩ | ⟨_, _, hk2', _⟩ | ⟨k2, v2, hkv2, _, heq⟩
    · rw [hkv] at hk2'; cases hk2'
    · rw [hkv] at hk2'; cases hk2'
    · have hp := hkv2.symm.trans hkv
      injection hp with hp
      injection hp with e1 e2
      subst e1
      subst e2
      rw [heq, kvApply_top _ k2 v2 htopic]
  rw [hstep]
  exact runLines_keeps_scalar k v post _ hpost (lookupKey_setKey_self _ _ _)

theorem claim_c6_witness :
    lookupKey (File.docOf ("/ k = \x22v\x22".data)) ("k".data) =
      some (GoAny.str "v".data) :=
  claim_c6_theorem ("/ k = \x22v\x22".data) [] [] ("k".data) ("v".data) (by rfl)
    (fun raw h => absurd h (List.not_mem_nil raw))
    (fun raw h => absurd h (List.not_mem_nil raw))
    (by decide) rfl rfl rfl rfl (by decide) (by decide) (by decide)

/-- Claim C7 (confirmed): the boolean coercion passes booleans through; on a
string it trims whitespace and accepts exactly the twelve case-sensitive
tokens of Go's `strconv.ParseBool` (mapping each to its boolean); any other
string — and any non-string, non-boolean dynamic value — yields an error. -/
theorem claim_c7_theorem (b : Bool) (s : Str) (v : GoAny) :
    Types.ParseToBool (GoAny.bool b) = Except.ok b ∧
    (Types.ParseToBool (GoAny.str s) = Except.ok true ↔
      trimSpace s ∈ ["1".data, "t".data, "T".data, "true".data, "TRUE".data, "True".data]) ∧
    (Types.ParseToBool (GoAny.str s) = Except.ok false ↔
      trimSpace s ∈ ["0".data, "f".data, "F".data, "false".data, "FALSE".data, "False".data]) ∧
    ((∀ s0, v ≠ GoAny.str s0) → (∀ b0, v ≠ GoAny.bool b0) →
      ∃ e, Types.ParseToBool v = Except.error e) := by
  refine ⟨rfl, ?_, ?_, ?_⟩
  · show strconvParseBool (trimSpace s) = Except.ok true ↔ _
    exact strconvParseBool_ok_true_iff (trimSpace s)
  · show strconvParseBool (trimSpace s) = Except.ok false ↔ _
    exact strconvParseBool_ok_false_iff (trimSpace s)
  · intro hstr hbool
    cases v with
    | str s0 => exact absurd rfl (hstr s0)
    | bool b0 => exact absurd rfl (hbool b0)
    | int w => exact ⟨_, rfl⟩
    | int64 w => exact ⟨_, rfl⟩
    | map m => exact ⟨_, rfl⟩
    | other t => exact ⟨_, rfl⟩

theorem claim_c7_witness :
    Types.ParseToBool (GoAny.bool true) = Except.ok true ∧
    Types.ParseToBool (GoAny.str " T ".data) = Except.ok true ∧
    ∃ e, Types.ParseToBool (GoAny.int 3) = Except.error e := by
  obtain ⟨h1, h2, _, h4⟩ := claim_c7_theorem true (" T ".data) (GoAny.int 3)
  exact ⟨h1, h2.mpr (by decide),
    h4 (fun s0 h => GoAny.noConfusion h) (fun b0 h => GoAny.noConfusion h)⟩
